import Mathlib

/-!
Verification development for the kamui-yaml-visualizer core.

The repository ships two variants of its YAML-to-graph module:

* Variant 1 (`processDirectory` / `generateNodesAndEdges`): recursively
  flattens a nested directory tree, emitting one node per duck-typed file
  leaf and one edge per declared dependency, directed from the file to the
  dependency path.  Layout constants come from `constant/constant.ts`
  (vertical spacing 200, horizontal spacing 400).  Its `getExtensionColor`
  uses the 16-entry color table from `constant.ts`, lowercasing its input.
* Variant 2 (`generateNodesAndEdges` of the second module): flattens a
  two-level `src` mapping, always emitting a synthetic `src/structure.yaml`
  node, with edges directed from the dependency path to the file.  Layout
  constants are inlined (vertical spacing 250, horizontal spacing 500).
  Its `getExtensionColor` uses a 9-entry case-sensitive table.

Both variants share the same `calculateNodePositions` leveling algorithm
(modulo the spacing constants); it is embedded once, parametrised by the
two spacing constants.

Unbounded JavaScript recursions (`calculateLevel`, `processDirectory`) are
embedded as fuel-indexed functions returning `Option`: `none` means the
call did not complete within the given recursion depth, so a result that
is `none` for every fuel models an infinite recursion (stack overflow in
JavaScript).  JavaScript objects used as dictionaries are embedded as
association lists; `nodesPerLevel`, whose integer-like keys JavaScript
enumerates in ascending numeric order, is kept sorted by key on insertion.
`Math.random()` is modelled by an explicit stream of draws passed in by
the environment.
-/

namespace KamuiViz

/-- JavaScript `s.split(sep)` for a single-character separator, on the
character list of the string.  `[] ↦ [[]]` matches `"".split(".") = [""]`. -/
def splitOnChar (sep : Char) : List Char → List (List Char)
  | [] => [[]]
  | c :: cs =>
    let rest := splitOnChar sep cs
    if c = sep then
      [] :: rest
    else
      match rest with
      | [] => [[c]]
      | a :: as => (c :: a) :: as

/-- The function `getFileExtension(path)` = `path.split(".").pop() || ""`: the last
`.`-separated segment, with the empty string as the falsy fallback. -/
def getFileExtension (path : String) : String :=
  match (splitOnChar '.' path.data).getLast? with
  | some last => if last = [] then "" else String.mk last
  | none => ""

/-- JavaScript `path.split("/").pop() || ""`, used to derive a file name from a path. -/
def getLastSegment (path : String) : String :=
  match (splitOnChar '/' path.data).getLast? with
  | some last => if last = [] then "" else String.mk last
  | none => ""

/-! Color and spacing constants from `constant/constant.ts`. -/

def jsColor : String := "#f7df1e"
def tsColor : String := "#3178c6"
def jsxColor : String := "#00d8ff"
def tsxColor : String := "#61dafb"
def dartColor : String := "#00b4ab"
def pythonColor : String := "#3572A5"
def cssColor : String := "#264de4"
def htmlColor : String := "#e34c26"
def yamlColor : String := "#cb171e"
def pngColor : String := "#4CAF50"
def glbColor : String := "#9C27B0"
def mp4Color : String := "#F44336"
def mp3Color : String := "#E91E63"
def marpColor : String := "#FF9800"
def mmdColor : String := "#795548"
def mdColor : String := "#607D8B"
def defaultColor : String := "#808080"
def defaultHorizontalSpacing : Int := 400
def defaultVerticalSpacing : Int := 200

/-- First-match lookup in an association list, mirroring JavaScript
property access on an object literal (keys are unique by construction,
so first match is the only match). -/
def lookupA {κ β : Type} [DecidableEq κ] : List (κ × β) → κ → Option β
  | [], _ => none
  | (k, v) :: rest, key => if k = key then some v else lookupA rest key

/-- Pair every list element with its index, starting at `i` (the index
argument of a JavaScript `forEach`/`entries` enumeration). -/
def enumIdx {α : Type} : Nat → List α → List (Nat × α)
  | _, [] => []
  | i, a :: as => (i, a) :: enumIdx (i + 1) as

/-- Assignment `obj[key] = v` on an object modelled as an association
list: overwrite in place if the key exists, else append. -/
def setA {β : Type} : List (String × β) → String → β → List (String × β)
  | [], key, v => [(key, v)]
  | (k, w) :: rest, key, v =>
    if k = key then (key, v) :: rest else (k, w) :: setA rest key v

/-- Sequence of assignments `obj[key] = v` for each pair of a list. -/
def writeAll {β : Type} : List (String × β) → List (String × β) → List (String × β)
  | obj, [] => obj
  | obj, a :: as => writeAll (setA obj a.1 a.2) as

/-- The `colorMap` of variant 1's `getExtensionColor` (entries in source
order, values from `constant.ts`). -/
def colorMap : List (String × String) :=
  [("js", jsColor), ("ts", tsColor), ("jsx", jsxColor), ("tsx", tsxColor),
   ("css", cssColor), ("html", htmlColor), ("yaml", yamlColor),
   ("dart", dartColor), ("python", pythonColor), ("png", pngColor),
   ("glb", glbColor), ("mp4", mp4Color), ("mp3", mp3Color),
   ("marp", marpColor), ("mmd", mmdColor), ("md", mdColor)]

/-- JavaScript `s.toLowerCase()`: lower-case every character. -/
def toLowerCase (s : String) : String := String.mk (s.data.map Char.toLower)

/-- Variant 1 `getExtensionColor`:
`colorMap[extension.toLowerCase()] || defaultColor`. -/
def getExtensionColor (ext : String) : String :=
  match lookupA colorMap (toLowerCase ext) with
  | some c => c
  | none => defaultColor

/-- The `colors` table of variant 2's `getExtensionColor` (9 entries,
no lowercasing, inlined hex values). -/
def colors2 : List (String × String) :=
  [("png", "#4CAF50"), ("glb", "#2196F3"), ("css", "#9C27B0"),
   ("marp", "#FF9800"), ("mmd", "#795548"), ("mp4", "#F44336"),
   ("mp3", "#E91E63"), ("md", "#607D8B"), ("yaml", "#FFC107")]

/-- Variant 2 `getExtensionColor`: `colors[extension] || "#9E9E9E"`. -/
def getExtensionColor2 (ext : String) : String :=
  match lookupA colors2 ext with
  | some c => c
  | none => "#9E9E9E"

/-! ## The layout engine (`calculateNodePositions`), shared by both
variants up to the spacing constants. -/

structure FileEdge where
  id : String
  source : String
  target : String
  deriving DecidableEq, Repr

/-- The two dictionaries mutated by `calculateLevel`: `levels` maps a node
id to its current level, `nodesPerLevel` maps a level to the node ids
pushed at that level, kept sorted by level in ascending order (JavaScript
enumerates integer-like object keys in ascending numeric order). -/
structure LevelState where
  levels : List (String × Nat)
  perLevel : List (Nat × List String)
  deriving DecidableEq, Repr

/-- The update `nodesPerLevel[level].push(id)` (creating the entry if absent),
keeping the list sorted by level. -/
def pushLevelNode : List (Nat × List String) → Nat → String → List (Nat × List String)
  | [], level, id => [(level, [id])]
  | (l, ids) :: rest, level, id =>
    if level = l then (l, ids ++ [id]) :: rest
    else if level < l then (level, [id]) :: (l, ids) :: rest
    else (l, ids) :: pushLevelNode rest level id

/-- Short-circuiting fold: a `none` from any step (a recursive call that
did not complete) aborts the whole `forEach`. -/
def foldOpt {σ α : Type} (g : σ → α → Option σ) : σ → List α → Option σ
  | st, [] => some st
  | st, x :: xs =>
    match g st x with
    | none => none
    | some st' => foldOpt g st' xs

/-- The recursive `calculateLevel(nodeId, level)`: record
`levels[nodeId] = max(levels[nodeId], level)` (or `level` when unset),
push `nodeId` onto `nodesPerLevel[level]`, then recurse into
`calculateLevel(edge.target, level + 1)` for every edge with
`edge.source === nodeId`.  The source performs no cycle detection; the
fuel argument bounds the recursion depth, `none` meaning the call did not
complete within that depth. -/
def calcLevel (edges : List FileEdge) : Nat → String → Nat → LevelState → Option LevelState
  | 0, _, _, _ => none
  | fuel + 1, nodeId, level, st =>
    let newLevel :=
      match lookupA st.levels nodeId with
      | some old => max old level
      | none => level
    let st1 : LevelState :=
      { levels := setA st.levels nodeId newLevel,
        perLevel := pushLevelNode st.perLevel level nodeId }
    foldOpt (fun s e => calcLevel edges fuel e.target (level + 1) s) st1
      (edges.filter (fun e => e.source == nodeId))

/-- The `startNodes` of `calculateNodePositions`: node ids that are no
edge's target. -/
def startNodes (nodeIds : List String) (edges : List FileEdge) : List String :=
  nodeIds.filter (fun id => ! edges.any (fun e => e.target == id))

/-- The loop `startNodes.forEach((nodeId) => calculateLevel(nodeId, 0))` starting
from empty `levels` / `nodesPerLevel`. -/
def computeLevels (fuel : Nat) (nodeIds : List String) (edges : List FileEdge) :
    Option LevelState :=
  foldOpt (fun st id => calcLevel edges fuel id 0 st) ⟨[], []⟩
    (startNodes nodeIds edges)

def STAGGER_OFFSET : Int := 100

/-- One iteration of the placement loop: the `(id, position)` assignments
made for one `nodesPerLevel` entry.  `totalWidth = (n - 1) * HS`,
`startX = -totalWidth / 2` (exact: `totalWidth` is always even),
stagger on odd levels, `y = level * VS`. -/
def assignRow (VS HS : Int) (level : Nat) (ids : List String) :
    List (String × (Int × Int)) :=
  let totalWidth : Int := ((ids.length : Int) - 1) * HS
  let startX : Int := (-totalWidth) / 2
  let staggerX : Int := if level % 2 = 0 then 0 else STAGGER_OFFSET
  (enumIdx 0 ids).map (fun p =>
    (p.2, (startX + (p.1 : Int) * HS + staggerX, (level : Int) * VS)))

/-- The placement loop over `Object.entries(nodesPerLevel)` (ascending
level order), writing each assignment into the `positions` object; a
node pushed at several levels is overwritten, last write wins. -/
def assignRows (VS HS : Int) : List (Nat × List String) →
    List (String × (Int × Int)) → List (String × (Int × Int))
  | [], pos => pos
  | entry :: rest, pos =>
    assignRows VS HS rest (writeAll pos (assignRow VS HS entry.1 entry.2))

def assignPositions (VS HS : Int) (perLevel : List (Nat × List String)) :
    List (String × (Int × Int)) :=
  assignRows VS HS perLevel []

/-- The function `calculateNodePositions` parametrised by the vertical and horizontal
spacing constants (200/400 in variant 1, 250/500 in variant 2). -/
def calculateNodePositionsWith (VS HS : Int) (fuel : Nat) (nodeIds : List String)
    (edges : List FileEdge) : Option (List (String × (Int × Int))) :=
  match computeLevels fuel nodeIds edges with
  | none => none
  | some st => some (assignPositions VS HS st.perLevel)

/-- Variant 1 `calculateNodePositions` (spacing from `constant.ts`).
Only the `id` field of each node is read, so the function is embedded
over the list of node ids. -/
def calculateNodePositions (fuel : Nat) (nodeIds : List String)
    (edges : List FileEdge) : Option (List (String × (Int × Int))) :=
  calculateNodePositionsWith defaultVerticalSpacing defaultHorizontalSpacing
    fuel nodeIds edges

/-- Variant 2 `calculateNodePositions` (inlined spacing 250/500). -/
def calculateNodePositions2 (fuel : Nat) (nodeIds : List String)
    (edges : List FileEdge) : Option (List (String × (Int × Int))) :=
  calculateNodePositionsWith 250 500 fuel nodeIds edges

/-! ## Variant 1 flattener: `processDirectory` / `generateNodesAndEdges`. -/

/-- A well-formed `YamlFile` leaf: an object carrying all four of
`content`, `dependency`, `agent`, `api` (plus the inert optional
`dependency_wait`). -/
structure YamlFileR where
  content : String
  dependency : List String
  agent : String
  api : List String
  dependency_wait : Option Bool
  deriving DecidableEq, Repr

/-- A parsed YAML value as fed to `processDirectory`: a duck-typed file
leaf (an object with all four required fields), a directory-like object
(any object without all four fields), or a plain string.
`Object.entries` of a string enumerates its indexed characters, which is
why strings must be distinguished from objects. -/
inductive YTree where
  | leaf (file : YamlFileR)
  | dir (entries : List (String × YTree))
  | str (s : String)

structure NodeData where
  label : String
  content : String
  agent : String
  extension : String
  deriving DecidableEq, Repr

/-- A variant 1 ReactFlow node (the constant `style` object is omitted). -/
structure FileNode where
  id : String
  data : NodeData
  position : Int × Int
  deriving DecidableEq, Repr

/-- The three accumulators threaded through `processDirectory`.  The
`Set<string>` of agents is insertion-ordered and deduplicating, modelled
as a duplicate-free list. -/
structure FlatState where
  nodes : List FileNode
  edges : List FileEdge
  agents : List String
  deriving DecidableEq, Repr

/-- JavaScript `Set.add`: append unless already present. -/
def addSet {β : Type} [DecidableEq β] (s : List β) (x : β) : List β :=
  if x ∈ s then s else s ++ [x]

/-- JavaScript `Object.entries` of a string: one entry per character, keyed by its
decimal index, the value being the one-character string. -/
def entriesOfString (s : String) : List (String × YTree) :=
  (enumIdx 0 s.data).map (fun p => (toString p.1, YTree.str (String.mk [p.2])))

/-- The path step `parentPath ? parentPath + "/" + key : key`. -/
def childPath (parentPath key : String) : String :=
  if parentPath = "" then key else parentPath ++ "/" ++ key

/-- The recursion `processDirectory(content, parentPath, nodes, edges, agents)`.
`rand` supplies the `Math.random() * 500` draws for the initial node
position, one pair per created node (the draw index is the number of
nodes created so far).  Fuel bounds the recursion depth as in
`calcLevel`. -/
def processDirectory (rand : Nat → Int × Int) :
    Nat → YTree → String → FlatState → Option FlatState
  | 0, _, _, _ => none
  | _ + 1, YTree.leaf f, parentPath, st =>
    let filePath := parentPath
    let fileName := getLastSegment filePath
    let node : FileNode :=
      { id := filePath,
        data := { label := fileName, content := f.content, agent := f.agent,
                  extension := getFileExtension fileName },
        position := rand st.nodes.length }
    some { nodes := st.nodes ++ [node],
           edges := st.edges ++ f.dependency.map (fun dep =>
             { id := filePath ++ "-" ++ dep, source := filePath, target := dep }),
           agents := addSet st.agents f.agent }
  | fuel + 1, YTree.dir entries, parentPath, st =>
    foldOpt (fun s kv => processDirectory rand fuel kv.2 (childPath parentPath kv.1) s)
      st entries
  | fuel + 1, YTree.str s, parentPath, st =>
    foldOpt (fun acc kv => processDirectory rand fuel kv.2 (childPath parentPath kv.1) acc)
      st (entriesOfString s)

structure GenResult where
  nodes : List FileNode
  edges : List FileEdge
  agents : List String
  deriving DecidableEq, Repr

/-- Variant 1 `generateNodesAndEdges(yamlData)`: flatten `yamlData.src`
from the root label `"src"`, lay the nodes out, and overwrite each node's
position when the layout produced one for its id. -/
def generateNodesAndEdges (rand : Nat → Int × Int) (fuel : Nat) (src : YTree) :
    Option GenResult :=
  match processDirectory rand fuel src "src" ⟨[], [], []⟩ with
  | none => none
  | some st =>
    match calculateNodePositions fuel (st.nodes.map (·.id)) st.edges with
    | none => none
    | some positions =>
      some { nodes := st.nodes.map (fun n =>
               match lookupA positions n.id with
               | some p => { n with position := p }
               | none => n),
             edges := st.edges,
             agents := st.agents }

/-! ## Variant 2 flattener: the second `generateNodesAndEdges`. -/

/-- A `yamlData.src` entry as typed by the `YamlData` interface: either a
single `YamlFile`-shaped record or a directory mapping file names to
records.  (The `"content" in value && typeof value.content === "string"`
probe agrees with this discrimination on inputs of the declared type.) -/
inductive V2Value where
  | file (f : YamlFileR)
  | dir (files : List (String × YamlFileR))
  deriving DecidableEq, Repr

structure NodeData2 where
  label : String
  content : Option String
  agent : Option String
  extension : String
  deriving DecidableEq, Repr

/-- A variant 2 ReactFlow node (`none` models `undefined` from the
optional-chaining accesses; the constant `style` object is omitted). -/
structure FileNode2 where
  id : String
  data : NodeData2
  position : Int × Int
  deriving DecidableEq, Repr

structure Flat2State where
  nodes : List FileNode2
  edges : List FileEdge
  agents : List (Option String)
  deriving DecidableEq, Repr

/-- The flattening phase of variant 2 `generateNodesAndEdges`: always
push a synthetic `src/structure.yaml` node (content and agent read via
optional chaining, hence `Option`), add its agent to the set, then
process every other `src` entry.  A single file's dependencies all become
edges; a directory file's dependencies are filtered to those starting
with `"src/"`.  Edges are directed from the dependency to the file. -/
def flatten2 (src : List (String × V2Value)) : Flat2State :=
  let structureFile : Option YamlFileR :=
    match lookupA src "structure.yaml" with
    | some (V2Value.file f) => some f
    | _ => none
  let structureNode : FileNode2 :=
    { id := "src/structure.yaml",
      data := { label := "structure.yaml",
                content := structureFile.map (·.content),
                agent := structureFile.map (·.agent),
                extension := "yaml" },
      position := (0, 0) }
  let init : Flat2State :=
    { nodes := [structureNode], edges := [],
      agents := addSet [] (structureFile.map (·.agent)) }
  src.foldl (fun st kv =>
    if kv.1 = "structure.yaml" then st
    else
      match kv.2 with
      | V2Value.file f =>
        let fullPath := "src/" ++ kv.1
        let node : FileNode2 :=
          { id := fullPath,
            data := { label := kv.1, content := some f.content,
                      agent := some f.agent,
                      extension := getFileExtension kv.1 },
            position := (0, 0) }
        { nodes := st.nodes ++ [node],
          edges := st.edges ++ f.dependency.map (fun dep =>
            { id := fullPath ++ "-" ++ dep, source := dep, target := fullPath }),
          agents := addSet st.agents (some f.agent) }
      | V2Value.dir files =>
        files.foldl (fun st2 fkv =>
          let fullPath := "src/" ++ kv.1 ++ "/" ++ fkv.1
          let node : FileNode2 :=
            { id := fullPath,
              data := { label := fkv.1, content := some fkv.2.content,
                        agent := some fkv.2.agent,
                        extension := getFileExtension fkv.1 },
              position := (0, 0) }
          { nodes := st2.nodes ++ [node],
            edges := st2.edges ++
              (fkv.2.dependency.filter (fun dep => dep.startsWith "src/")).map
                (fun dep =>
                  { id := fullPath ++ "-" ++ dep, source := dep, target := fullPath }),
            agents := addSet st2.agents (some fkv.2.agent) }) st)
    init

structure Gen2Result where
  nodes : List FileNode2
  edges : List FileEdge
  agents : List (Option String)
  deriving DecidableEq, Repr

/-- Variant 2 `generateNodesAndEdges(yamlData)` over `yamlData.src`. -/
def generateNodesAndEdges2 (fuel : Nat) (src : List (String × V2Value)) :
    Option Gen2Result :=
  let st := flatten2 src
  match calculateNodePositions2 fuel (st.nodes.map (·.id)) st.edges with
  | none => none
  | some positions =>
    some { nodes := st.nodes.map (fun n =>
             match lookupA positions n.id with
             | some p => { n with position := p }
             | none => n),
           edges := st.edges,
           agents := st.agents }

/-! ## Specification-side relations and example inputs -/

/-- Reachability at a recorded depth: `ReachD edges n m k` holds when the
depth-first walk of `calcLevel` can reach `m` from `n` along `k` edges
(following `source → target`). -/
inductive ReachD (edges : List FileEdge) : String → String → Nat → Prop
  | refl (n : String) : ReachD edges n n 0
  | head {n m : String} {k : Nat} (e : FileEdge) (he : e ∈ edges)
      (hsrc : e.source = n) (h : ReachD edges e.target m k) :
      ReachD edges n m (k + 1)

/-- Pointwise bound between `levels` dictionaries: every recorded level
persists and never decreases. -/
def LevelLE (s t : LevelState) : Prop :=
  ∀ n L, lookupA s.levels n = some L → ∃ L', lookupA t.levels n = some L' ∧ L ≤ L'

/-- Membership of a node in the `nodesPerLevel` row of a given level. -/
def MemRow (pl : List (Nat × List String)) (lv : Nat) (n : String) : Prop :=
  ∃ ids, (lv, ids) ∈ pl ∧ n ∈ ids

/-- Combined monotonicity of one `calculateLevel` step: recorded levels
never decrease and `nodesPerLevel` rows only gain members. -/
def StepLE (s t : LevelState) : Prop :=
  LevelLE s t ∧ ∀ lv n, MemRow s.perLevel lv n → MemRow t.perLevel lv n

/-- The x-coordinates assigned in one placement row of variant 1's
`calculateNodePositions`. -/
def rowXs (lv : Nat) (ids : List String) : List Int :=
  (assignRow defaultVerticalSpacing defaultHorizontalSpacing lv ids).map
    (fun a => a.2.1)

/-- The level value `calculateLevel` stores for `nodeId`:
`max(levels[nodeId], level)` when already set, else `level`. -/
def newLevelOf (st : LevelState) (n : String) (l : Nat) : Nat :=
  match lookupA st.levels n with
  | some old => max old l
  | none => l

/-- A variant 1 node with its (possibly random) position forgotten. -/
def stripPos (n : FileNode) : String × NodeData := (n.id, n.data)

/-- Agreement of two variant 1 flattener states up to node positions. -/
def FlatAgree (s t : FlatState) : Prop :=
  s.nodes.map stripPos = t.nodes.map stripPos ∧ s.edges = t.edges ∧
    s.agents = t.agents

/-- A constant `Math.random()` stream. -/
def constRand (p : Int × Int) : Nat → Int × Int := fun _ => p

/-- Edges of a graph whose cycle `a → b → a` is reachable from the root
`r`. -/
def cycleEdges : List FileEdge :=
  [⟨"r-a", "r", "a"⟩, ⟨"a-b", "a", "b"⟩, ⟨"b-a", "b", "a"⟩]

/-- A tree whose single leaf declares a dependency on a path that matches
no flattened node. -/
def missingDepTree : YTree :=
  YTree.dir [("a.ts", YTree.leaf ⟨"x", ["src/missing.ts"], "A", [], none⟩)]

/-- The same input shaped for the variant 2 flattener. -/
def missingDepSrc2 : List (String × V2Value) :=
  [("a.ts", V2Value.file ⟨"x", ["src/missing.ts"], "A", [], none⟩)]

/-- A `src` tree whose two files depend on each other: a pure two-cycle,
unreachable from any root. -/
def cycleTree : YTree :=
  YTree.dir
    [("a.ts", YTree.leaf ⟨"x", ["src/b.ts"], "A", [], none⟩),
     ("b.ts", YTree.leaf ⟨"y", ["src/a.ts"], "B", [], none⟩)]

/-- The single edge `a → b`, placing `b` at level 1. -/
def chainEdge : FileEdge := ⟨"a-b", "a", "b"⟩

/-! ## Theorems -/

/-- Splitting on a separator that does not occur returns the whole list
as the single segment. -/
theorem splitOnChar_not_mem (sep : Char) (cs : List Char) (h : sep ∉ cs) :
    splitOnChar sep cs = [cs] := by
  induction cs with
  | nil => rfl
  | cons c cs ih =>
    rw [List.mem_cons, not_or] at h
    have hc : ¬ c = sep := fun hh => h.1 hh.symm
    simp [splitOnChar, hc, ih h.2]

/-- Claim C10: for a path containing no `.`, `getFileExtension` (that is,
`path.split(".").pop() || ""`) returns the whole path when the path is
nonempty, and returns the empty string exactly for the empty path. -/
theorem c10_no_dot_extension (path : String) (h : '.' ∉ path.data) :
    (path ≠ "" → getFileExtension path = path) ∧
      (getFileExtension path = "" ↔ path = "") := by
  obtain ⟨cs⟩ := path
  have hs : splitOnChar '.' cs = [cs] := splitOnChar_not_mem _ _ h
  have hext : getFileExtension (String.mk cs) =
      if cs = [] then "" else String.mk cs := by
    rw [getFileExtension]
    simp [hs]
  cases cs with
  | nil => simp [hext]
  | cons c cs' =>
    have hne : String.mk (c :: cs') ≠ "" := fun hh =>
      List.cons_ne_nil c cs' (congrArg String.data hh)
    simp [hext, hne]

/-- Claim C10, witness: a dotless nonempty file name is its own
extension. -/
theorem c10_witness :
    ("Makefile" ≠ "" → getFileExtension "Makefile" = "Makefile") ∧
      (getFileExtension "Makefile" = "" ↔ "Makefile" = "") :=
  c10_no_dot_extension "Makefile" (by decide)

theorem foldOpt_cons_none {σ α : Type} (g : σ → α → Option σ) (st : σ) (x : α)
    (xs : List α) (h : g st x = none) : foldOpt g st (x :: xs) = none := by
  rw [foldOpt, h]

theorem foldOpt_cons_some {σ α : Type} (g : σ → α → Option σ) {st st' : σ} {x : α}
    (xs : List α) (h : g st x = some st') :
    foldOpt g st (x :: xs) = foldOpt g st' xs := by
  rw [foldOpt, h]

theorem lookupA_setA_self {β : Type} (l : List (String × β)) (k : String) (v : β) :
    lookupA (setA l k v) k = some v := by
  induction l with
  | nil => simp [setA, lookupA]
  | cons a rest ih =>
    obtain ⟨k', w⟩ := a
    by_cases h : k' = k
    · simp [setA, h, lookupA]
    · simp [setA, h, lookupA, ih]

theorem lookupA_setA_ne {β : Type} (l : List (String × β)) {k k' : String} (v : β)
    (h : k' ≠ k) : lookupA (setA l k v) k' = lookupA l k' := by
  induction l with
  | nil => simp [setA, lookupA, Ne.symm h]
  | cons a rest ih =>
    obtain ⟨k'', w⟩ := a
    by_cases hk : k'' = k
    · subst hk
      simp [setA, lookupA, Ne.symm h]
    · simp [setA, hk, lookupA, ih]

theorem memRow_push (pl : List (Nat × List String)) (lv : Nat) (id : String)
    (lv' : Nat) (n : String) :
    MemRow (pushLevelNode pl lv id) lv' n ↔
      MemRow pl lv' n ∨ (lv' = lv ∧ n = id) := by
  induction pl with
  | nil =>
    constructor
    · rintro ⟨ids', hin, hm⟩
      rw [pushLevelNode, List.mem_singleton] at hin
      injection hin with h3 h4
      subst h3
      subst h4
      exact Or.inr ⟨rfl, List.mem_singleton.mp hm⟩
    · rintro (⟨ids', hin, _⟩ | ⟨rfl, rfl⟩)
      · exact absurd hin (List.not_mem_nil _)
      · exact ⟨[n], List.mem_singleton_self _, List.mem_singleton_self n⟩
  | cons a rest ih =>
    obtain ⟨l, ids⟩ := a
    rcases Nat.lt_trichotomy lv l with hlt | rfl | hgt
    · rw [pushLevelNode, if_neg (Nat.ne_of_lt hlt), if_pos hlt]
      constructor
      · rintro ⟨ids', hin, hm⟩
        rcases List.mem_cons.mp hin with h | h
        · injection h with h3 h4
          subst h3
          subst h4
          exact Or.inr ⟨rfl, List.mem_singleton.mp hm⟩
        · exact Or.inl ⟨ids', h, hm⟩
      · rintro (⟨ids', hin, hm⟩ | ⟨rfl, rfl⟩)
        · exact ⟨ids', List.mem_cons_of_mem _ hin, hm⟩
        · exact ⟨[n], List.mem_cons_self _ _, List.mem_singleton_self n⟩
    · rw [pushLevelNode, if_pos rfl]
      constructor
      · rintro ⟨ids', hin, hm⟩
        rcases List.mem_cons.mp hin with h | h
        · injection h with h3 h4
          subst h3
          rw [h4] at hm
          rcases List.mem_append.mp hm with hm' | hm'
          · exact Or.inl ⟨ids, List.mem_cons_self _ _, hm'⟩
          · exact Or.inr ⟨rfl, List.mem_singleton.mp hm'⟩
        · exact Or.inl ⟨ids', List.mem_cons_of_mem _ h, hm⟩
      · rintro (⟨ids', hin, hm⟩ | ⟨rfl, rfl⟩)
        · rcases List.mem_cons.mp hin with h | h
          · injection h with h3 h4
            subst h3
            rw [h4] at hm
            exact ⟨ids ++ [id], List.mem_cons_self _ _, List.mem_append.mpr (Or.inl hm)⟩
          · exact ⟨ids', List.mem_cons_of_mem _ h, hm⟩
        · exact ⟨ids ++ [n], List.mem_cons_self _ _,
            List.mem_append.mpr (Or.inr (List.mem_singleton_self n))⟩
    · rw [pushLevelNode, if_neg (Nat.ne_of_lt hgt).symm, if_neg (Nat.lt_asymm hgt)]
      constructor
      · rintro ⟨ids', hin, hm⟩
        rcases List.mem_cons.mp hin with h | h
        · injection h with h3 h4
          subst h3
          rw [h4] at hm
          exact Or.inl ⟨ids, List.mem_cons_self _ _, hm⟩
        · rcases ih.mp ⟨ids', h, hm⟩ with ⟨ids'', hin'', hm''⟩ | hr
          · exact Or.inl ⟨ids'', List.mem_cons_of_mem _ hin'', hm''⟩
          · exact Or.inr hr
      · rintro (⟨ids', hin, hm⟩ | hr)
        · rcases List.mem_cons.mp hin with h | h
          · injection h with h3 h4
            subst h3
            rw [h4] at hm
            exact ⟨ids, List.mem_cons_self _ _, hm⟩
          · obtain ⟨ids'', hin'', hm''⟩ := ih.mpr (Or.inl ⟨ids', h, hm⟩)
            exact ⟨ids'', List.mem_cons_of_mem _ hin'', hm''⟩
        · obtain ⟨ids'', hin'', hm''⟩ := ih.mpr (Or.inr hr)
          exact ⟨ids'', List.mem_cons_of_mem _ hin'', hm''⟩

theorem foldOpt_rel {σ α : Type} (R : σ → σ → Prop)
    (hrefl : ∀ s, R s s) (htrans : ∀ {a b c}, R a b → R b c → R a c)
    (g : σ → α → Option σ) :
    ∀ (xs : List α), (∀ s x s', x ∈ xs → g s x = some s' → R s s') →
      ∀ s s', foldOpt g s xs = some s' → R s s' := by
  intro xs
  induction xs with
  | nil =>
    intro _ s s' h
    rw [foldOpt] at h
    cases h
    exact hrefl s
  | cons x xs ih =>
    intro hg s s' h
    cases hx : g s x with
    | none => rw [foldOpt_cons_none _ _ _ _ hx] at h; cases h
    | some sm =>
      rw [foldOpt_cons_some _ _ hx] at h
      exact htrans (hg s x sm (List.mem_cons_self x xs) hx)
        (ih (fun a y b hy hb => hg a y b (List.mem_cons_of_mem x hy) hb) sm s' h)

theorem foldOpt_step {σ α : Type} (R : σ → σ → Prop)
    (hrefl : ∀ s, R s s) (htrans : ∀ {a b c}, R a b → R b c → R a c)
    (g : σ → α → Option σ) :
    ∀ (xs : List α), (∀ s x s', x ∈ xs → g s x = some s' → R s s') →
      ∀ s s', foldOpt g s xs = some s' → ∀ x ∈ xs,
        ∃ a b, g a x = some b ∧ R s a ∧ R b s' := by
  intro xs
  induction xs with
  | nil => intro _ s s' _ x hx; exact absurd hx (List.not_mem_nil x)
  | cons y ys ih =>
    intro hg s s' h x hx
    cases hy : g s y with
    | none => rw [foldOpt_cons_none _ _ _ _ hy] at h; cases h
    | some sm =>
      rw [foldOpt_cons_some _ _ hy] at h
      have hg' : ∀ a z b, z ∈ ys → g a z = some b → R a b :=
        fun a z b hz hb => hg a z b (List.mem_cons_of_mem y hz) hb
      rcases List.mem_cons.mp hx with rfl | hx'
      · exact ⟨s, sm, hy, hrefl s, foldOpt_rel R hrefl htrans g ys hg' sm s' h⟩
      · obtain ⟨a, b, hab, hsa, hbs⟩ := ih hg' sm s' h x hx'
        exact ⟨a, b, hab, htrans (hg s y sm (List.mem_cons_self y ys) hy) hsa, hbs⟩

theorem stepLE_refl (s : LevelState) : StepLE s s :=
  ⟨fun n L h => ⟨L, h, le_refl L⟩, fun _ _ h => h⟩

theorem stepLE_trans {a b c : LevelState} (h1 : StepLE a b) (h2 : StepLE b c) :
    StepLE a c := by
  refine ⟨fun n L h => ?_, fun lv n h => h2.2 lv n (h1.2 lv n h)⟩
  obtain ⟨L', hb, hle⟩ := h1.1 n L h
  obtain ⟨L'', hc, hle'⟩ := h2.1 n L' hb
  exact ⟨L'', hc, le_trans hle hle'⟩

/-- A completed `calculateLevel` call records its own node at a level at
least the call's depth argument. -/
theorem calcLevel_post (edges : List FileEdge) :
    ∀ (f : Nat) (n : String) (l : Nat) (st st' : LevelState),
      calcLevel edges f n l st = some st' →
      StepLE st st' ∧ (∃ L, lookupA st'.levels n = some L ∧ l ≤ L) ∧
        MemRow st'.perLevel l n := by
  intro f
  induction f with
  | zero => intro n l st st' h; cases h
  | succ f ih =>
    intro n l st st' h
    simp only [calcLevel] at h
    set newLevel := (match lookupA st.levels n with
      | some old => max old l
      | none => l) with hnew
    set st1 : LevelState :=
      { levels := setA st.levels n newLevel,
        perLevel := pushLevelNode st.perLevel l n } with hst1
    have h1 : StepLE st st1 := by
      constructor
      · intro m L hm
        by_cases hmn : m = n
        · subst hmn
          refine ⟨newLevel, by simp [hst1, lookupA_setA_self], ?_⟩
          rw [hnew, hm]
          exact le_max_left _ _
        · exact ⟨L, by simp [hst1, lookupA_setA_ne _ _ hmn, hm], le_refl L⟩
      · intro lv m hm
        exact (memRow_push st.perLevel l n lv m).mpr (Or.inl hm)
    have hsomefold : StepLE st1 st' :=
      foldOpt_rel StepLE stepLE_refl stepLE_trans _ _
        (fun s e s' _ hs => (ih e.target (l + 1) s s' hs).1) st1 st' h
    have hself1 : lookupA st1.levels n = some newLevel := by
      simp [hst1, lookupA_setA_self]
    have hl : l ≤ newLevel := by
      rw [hnew]
      cases lookupA st.levels n with
      | none => exact le_refl l
      | some old => exact le_max_right _ _
    obtain ⟨L', hL', hle⟩ := hsomefold.1 n newLevel hself1
    refine ⟨stepLE_trans h1 hsomefold, ⟨L', hL', le_trans hl hle⟩, ?_⟩
    exact hsomefold.2 l n
      ((memRow_push st.perLevel l n l n).mpr (Or.inr ⟨rfl, rfl⟩))

theorem mem_filter_source (edges : List FileEdge) (e : FileEdge) (n : String) :
    e ∈ edges.filter (fun e => e.source == n) ↔ e ∈ edges ∧ e.source = n := by
  rw [List.mem_filter, beq_iff_eq]

/-- Extending a reachability path by one edge at its end. -/
theorem ReachD_snoc {edges : List FileEdge} {a b : String} {k : Nat}
    (h : ReachD edges a b k) (e : FileEdge) (he : e ∈ edges) :
    e.source = b → ReachD edges a e.target (k + 1) := by
  induction h with
  | refl n => exact fun hsrc => ReachD.head e he hsrc (ReachD.refl e.target)
  | head e' he' hsrc' _ ih =>
    exact fun hsrc => ReachD.head e' he' hsrc' (ih hsrc)

/-- One unfolding of `calcLevel` at positive fuel. -/
theorem calcLevel_succ (edges : List FileEdge) (f : Nat) (n : String) (l : Nat)
    (st : LevelState) :
    calcLevel edges (f + 1) n l st =
      foldOpt (fun s e => calcLevel edges f e.target (l + 1) s)
        ⟨setA st.levels n (newLevelOf st n l), pushLevelNode st.perLevel l n⟩
        (edges.filter (fun e => e.source == n)) := rfl

/-- Every level recorded after a `calculateLevel` call either was already
recorded or is the depth of a traversal path from the call's node. -/
theorem calcLevel_provenance (edges : List FileEdge) :
    ∀ (f : Nat) (n : String) (l : Nat) (st st' : LevelState),
      calcLevel edges f n l st = some st' →
      ∀ m L, lookupA st'.levels m = some L →
        lookupA st.levels m = some L ∨ ∃ k, ReachD edges n m k ∧ L = l + k := by
  intro f
  induction f with
  | zero => intro n l st st' h; cases h
  | succ f ih =>
    intro n l st st' h m L hm
    rw [calcLevel_succ] at h
    have hfold := foldOpt_rel
      (fun s t : LevelState => ∀ m L, lookupA t.levels m = some L →
        lookupA s.levels m = some L ∨ ∃ k, ReachD edges n m k ∧ L = l + k)
      (fun _ _ _ hm => Or.inl hm)
      (fun {a b c} hab hbc m L hm => by
        rcases hbc m L hm with h1 | h1
        · exact hab m L h1
        · exact Or.inr h1)
      _ _
      (fun s x s' hx hs m L hm => by
        rcases ih x.target (l + 1) s s' hs m L hm with h1 | ⟨k, hk, hkL⟩
        · exact Or.inl h1
        · obtain ⟨hxe, hxs⟩ := (mem_filter_source edges x n).mp hx
          exact Or.inr ⟨k + 1, ReachD.head x hxe hxs hk, by omega⟩)
      _ _ h
    rcases hfold m L hm with h1 | h1
    · have h1' : lookupA (setA st.levels n (newLevelOf st n l)) m = some L := h1
      by_cases hmn : m = n
      · subst hmn
        rw [lookupA_setA_self] at h1'
        injection h1' with h1'
        cases hold : lookupA st.levels m with
        | none =>
          simp only [newLevelOf, hold] at h1'
          exact Or.inr ⟨0, ReachD.refl m, by omega⟩
        | some old =>
          simp only [newLevelOf, hold] at h1'
          rcases Nat.le_total old l with hol | hol
          · rw [Nat.max_eq_right hol] at h1'
            exact Or.inr ⟨0, ReachD.refl m, by omega⟩
          · rw [Nat.max_eq_left hol] at h1'
            exact Or.inl (by rw [h1'])
      · rw [lookupA_setA_ne _ _ hmn] at h1'
        exact Or.inl h1'
    · exact Or.inr h1

/-- Lower bound: a completed `calculateLevel` call records, for every node
reachable from its start node, a level at least the reaching depth. -/
theorem calcLevel_reach_lb (edges : List FileEdge) :
    ∀ (f : Nat) (n : String) (l : Nat) (st st' : LevelState),
      calcLevel edges f n l st = some st' →
      ∀ m k, ReachD edges n m k →
        ∃ L, lookupA st'.levels m = some L ∧ l + k ≤ L := by
  intro f
  induction f with
  | zero => intro n l st st' h; cases h
  | succ f ih =>
    intro n l st st' h m k hreach
    cases hreach with
    | refl =>
      obtain ⟨_, ⟨L, hL, hle⟩, _⟩ := calcLevel_post edges (f + 1) n l st st' h
      exact ⟨L, hL, by omega⟩
    | head e he hsrc h' =>
      rw [calcLevel_succ] at h
      have hmem : e ∈ edges.filter (fun e => e.source == n) :=
        (mem_filter_source edges e n).mpr ⟨he, hsrc⟩
      obtain ⟨a, b, hab, _, hbs⟩ := foldOpt_step StepLE stepLE_refl stepLE_trans _ _
        (fun s x s' _ hs => (calcLevel_post edges f x.target (l + 1) s s' hs).1)
        _ _ h e hmem
      obtain ⟨L, hL, hle⟩ := ih e.target (l + 1) a b hab m _ h'
      obtain ⟨L', hL', hle'⟩ := hbs.1 m L hL
      exact ⟨L', hL', by omega⟩

/-- Every `nodesPerLevel` row entry made by a `calculateLevel` call is the
call's own node at the call's depth, or some edge's target at a positive
depth. -/
theorem calcLevel_rows_provenance (edges : List FileEdge) :
    ∀ (f : Nat) (n : String) (l : Nat) (st st' : LevelState),
      calcLevel edges f n l st = some st' →
      ∀ lv m, MemRow st'.perLevel lv m →
        MemRow st.perLevel lv m ∨ (m = n ∧ lv = l) ∨
          (∃ e ∈ edges, e.target = m ∧ 0 < lv) := by
  intro f
  induction f with
  | zero => intro n l st st' h; cases h
  | succ f ih =>
    intro n l st st' h lv m hm
    rw [calcLevel_succ] at h
    have hfold := foldOpt_rel
      (fun s t : LevelState => ∀ lv m, MemRow t.perLevel lv m →
        MemRow s.perLevel lv m ∨ (∃ e ∈ edges, e.target = m ∧ 0 < lv))
      (fun _ _ _ hm => Or.inl hm)
      (fun {a b c} hab hbc lv m hm => by
        rcases hbc lv m hm with h1 | h1
        · exact hab lv m h1
        · exact Or.inr h1)
      _ _
      (fun s x s' hx hs lv m hm => by
        rcases ih x.target (l + 1) s s' hs lv m hm with h1 | ⟨rfl, rfl⟩ | h1
        · exact Or.inl h1
        · exact Or.inr ⟨x, ((mem_filter_source edges x n).mp hx).1, rfl,
            Nat.succ_pos l⟩
        · exact Or.inr h1)
      _ _ h
    rcases hfold lv m hm with h1 | h1
    · have h1' : MemRow (pushLevelNode st.perLevel l n) lv m := h1
      rcases (memRow_push st.perLevel l n lv m).mp h1' with h2 | ⟨h3, h4⟩
      · exact Or.inl h2
      · exact Or.inr (Or.inl ⟨h4, h3⟩)
    · exact Or.inr (Or.inr h1)

/-- Lower bound lifted to the `startNodes` loop of
`calculateNodePositions`. -/
theorem computeLevels_lb (fuel : Nat) (nodeIds : List String)
    (edges : List FileEdge) (st : LevelState)
    (hst : computeLevels fuel nodeIds edges = some st)
    (r : String) (hr : r ∈ startNodes nodeIds edges) :
    ∀ m k, ReachD edges r m k → ∃ L, lookupA st.levels m = some L ∧ k ≤ L := by
  intro m k hreach
  rw [computeLevels] at hst
  obtain ⟨a, b, hab, _, hbs⟩ := foldOpt_step StepLE stepLE_refl stepLE_trans _ _
    (fun s x s' _ hs => (calcLevel_post edges fuel x 0 s s' hs).1) _ _ hst r hr
  obtain ⟨L, hL, hle⟩ := calcLevel_reach_lb edges fuel r 0 a b hab m k hreach
  obtain ⟨L', hL', hle'⟩ := hbs.1 m L hL
  exact ⟨L', hL', by omega⟩

/-- Provenance lifted to the `startNodes` loop: every recorded level is
the depth of a traversal path from some start node. -/
theorem computeLevels_provenance (fuel : Nat) (nodeIds : List String)
    (edges : List FileEdge) (st : LevelState)
    (hst : computeLevels fuel nodeIds edges = some st) :
    ∀ m L, lookupA st.levels m = some L →
      ∃ r, r ∈ startNodes nodeIds edges ∧ ReachD edges r m L := by
  rw [computeLevels] at hst
  have hfold := foldOpt_rel
    (fun s t : LevelState => ∀ m L, lookupA t.levels m = some L →
      lookupA s.levels m = some L ∨
        ∃ r, r ∈ startNodes nodeIds edges ∧ ReachD edges r m L)
    (fun _ _ _ hm => Or.inl hm)
    (fun {a b c} hab hbc m L hm => by
      rcases hbc m L hm with h1 | h1
      · exact hab m L h1
      · exact Or.inr h1)
    _ _
    (fun s x s' hx hs m L hm => by
      rcases calcLevel_provenance edges fuel x 0 s s' hs m L hm with h1 | ⟨k, hk, hkL⟩
      · exact Or.inl h1
      · refine Or.inr ⟨x, hx, ?_⟩
        have hkL' : k = L := by omega
        rwa [hkL'] at hk)
    _ _ hst
  intro m L hm
  rcases hfold m L hm with h1 | h1
  · exact absurd h1 (by simp [lookupA])
  · exact h1

/-- Every start node appears in row 0 of the final `nodesPerLevel`. -/
theorem computeLevels_root_row (fuel : Nat) (nodeIds : List String)
    (edges : List FileEdge) (st : LevelState)
    (hst : computeLevels fuel nodeIds edges = some st)
    (r : String) (hr : r ∈ startNodes nodeIds edges) :
    MemRow st.perLevel 0 r := by
  rw [computeLevels] at hst
  obtain ⟨a, b, hab, _, hbs⟩ := foldOpt_step StepLE stepLE_refl stepLE_trans _ _
    (fun s x s' _ hs => (calcLevel_post edges fuel x 0 s s' hs).1) _ _ hst r hr
  exact hbs.2 0 r (calcLevel_post edges fuel r 0 a b hab).2.2

/-- Every row entry of the final `nodesPerLevel` is a start node at level
0 or an edge target at a positive level. -/
theorem computeLevels_rows_provenance (fuel : Nat) (nodeIds : List String)
    (edges : List FileEdge) (st : LevelState)
    (hst : computeLevels fuel nodeIds edges = some st) :
    ∀ lv n, MemRow st.perLevel lv n →
      (n ∈ startNodes nodeIds edges ∧ lv = 0) ∨
        (∃ e ∈ edges, e.target = n ∧ 0 < lv) := by
  rw [computeLevels] at hst
  have hfold := foldOpt_rel
    (fun s t : LevelState => ∀ lv n, MemRow t.perLevel lv n →
      MemRow s.perLevel lv n ∨ (n ∈ startNodes nodeIds edges ∧ lv = 0) ∨
        (∃ e ∈ edges, e.target = n ∧ 0 < lv))
    (fun _ _ _ hm => Or.inl hm)
    (fun {a b c} hab hbc lv n hm => by
      rcases hbc lv n hm with h1 | h1
      · exact hab lv n h1
      · exact Or.inr h1)
    _ _
    (fun s x s' hx hs lv n hm => by
      rcases calcLevel_rows_provenance edges fuel x 0 s s' hs lv n hm with
        h1 | ⟨rfl, rfl⟩ | h1
      · exact Or.inl h1
      · exact Or.inr (Or.inl ⟨hx, rfl⟩)
      · exact Or.inr (Or.inr h1))
    _ _ hst
  intro lv n hm
  rcases hfold lv n hm with h1 | h1
  · obtain ⟨ids, hin, _⟩ := h1
    exact absurd hin (List.not_mem_nil _)
  · exact h1

theorem writeAll_lookup_notin {β : Type} (pos row : List (String × β))
    (r : String) (h : ∀ a ∈ row, a.1 ≠ r) :
    lookupA (writeAll pos row) r = lookupA pos r := by
  induction row generalizing pos with
  | nil => rfl
  | cons a as ih =>
    rw [writeAll, ih _ (fun b hb => h b (List.mem_cons_of_mem a hb))]
    exact lookupA_setA_ne _ _ (Ne.symm (h a (List.mem_cons_self a as)))

theorem writeAll_lookup_mem {β : Type} (pos row : List (String × β))
    (r : String) (h : ∃ a ∈ row, a.1 = r) :
    ∃ a, a ∈ row ∧ a.1 = r ∧ lookupA (writeAll pos row) r = some a.2 := by
  induction row generalizing pos with
  | nil =>
    obtain ⟨a, ha, _⟩ := h
    exact absurd ha (List.not_mem_nil a)
  | cons a as ih =>
    by_cases has : ∃ b ∈ as, b.1 = r
    · obtain ⟨b, hb, hbr, hlook⟩ := ih (setA pos a.1 a.2) has
      exact ⟨b, List.mem_cons_of_mem a hb, hbr, by rw [writeAll]; exact hlook⟩
    · obtain ⟨c, hc, hcr⟩ := h
      rcases List.mem_cons.mp hc with rfl | hc'
      · refine ⟨c, List.mem_cons_self c as, hcr, ?_⟩
        rw [writeAll,
          writeAll_lookup_notin _ _ _ (fun b hb hbr => has ⟨b, hb, hbr⟩), ← hcr]
        exact lookupA_setA_self _ _ _
      · exact absurd ⟨c, hc', hcr⟩ has

theorem enumIdx_map_snd {α : Type} : ∀ (i : Nat) (l : List α),
    (enumIdx i l).map Prod.snd = l := by
  intro i l
  induction l generalizing i with
  | nil => rfl
  | cons a as ih => simp [enumIdx, ih]

theorem assignRow_keys (VS HS : Int) (lv : Nat) (ids : List String) :
    (assignRow VS HS lv ids).map Prod.fst = ids := by
  simp only [assignRow, List.map_map]
  exact enumIdx_map_snd 0 ids

theorem assignRow_y (VS HS : Int) (lv : Nat) (ids : List String)
    (a : String × (Int × Int)) (ha : a ∈ assignRow VS HS lv ids) :
    a.2.2 = (lv : Int) * VS := by
  simp only [assignRow, List.mem_map] at ha
  obtain ⟨p, _, rfl⟩ := ha
  rfl

/-- Walking the placement rows: a node occurring only in rows of level 0
(or already holding a `y = 0` entry) ends with a `y = 0` position. -/
theorem assignRows_lookup_zero (VS HS : Int) :
    ∀ (pl : List (Nat × List String)) (pos0 : List (String × (Int × Int)))
      (r : String),
      (∀ lv ids, (lv, ids) ∈ pl → r ∈ ids → lv = 0) →
      ((∃ ids, (0, ids) ∈ pl ∧ r ∈ ids) ∨
        (∃ x, lookupA pos0 r = some (x, 0))) →
      ∃ x, lookupA (assignRows VS HS pl pos0) r = some (x, 0) := by
  intro pl
  induction pl with
  | nil =>
    intro pos0 r _ h
    rcases h with ⟨ids, hin, _⟩ | h
    · exact absurd hin (List.not_mem_nil _)
    · exact h
  | cons entry rest ih =>
    intro pos0 r hall h
    obtain ⟨lv, ids⟩ := entry
    rw [assignRows]
    by_cases hr : r ∈ ids
    · have hlv : lv = 0 := hall lv ids (List.mem_cons_self _ _) hr
      subst hlv
      have hmem : ∃ a ∈ assignRow VS HS 0 ids, a.1 = r := by
        have hm : r ∈ (assignRow VS HS 0 ids).map Prod.fst := by
          rw [assignRow_keys]
          exact hr
        obtain ⟨a, ha, har⟩ := List.mem_map.mp hm
        exact ⟨a, ha, har⟩
      obtain ⟨a, ha, _, hlook⟩ := writeAll_lookup_mem pos0 _ r hmem
      have hy : a.2.2 = 0 := by
        have hz := assignRow_y VS HS 0 ids a ha
        simpa using hz
      refine ih _ r
        (fun lv' ids' hin' => hall lv' ids' (List.mem_cons_of_mem _ hin'))
        (Or.inr ⟨a.2.1, ?_⟩)
      rw [hlook, show a.2 = (a.2.1, a.2.2) from rfl, hy]
    · have hkeys : ∀ b ∈ assignRow VS HS lv ids, b.1 ≠ r := by
        intro b hb hbr
        apply hr
        rw [← assignRow_keys VS HS lv ids]
        exact hbr ▸ List.mem_map_of_mem Prod.fst hb
      refine ih _ r
        (fun lv' ids' hin' => hall lv' ids' (List.mem_cons_of_mem _ hin')) ?_
      rcases h with ⟨ids', hin', hr'⟩ | ⟨x, hx⟩
      · rcases List.mem_cons.mp hin' with h' | h'
        · injection h' with h1 h2
          rw [h2] at hr'
          exact absurd hr' hr
        · exact Or.inl ⟨ids', h', hr'⟩
      · exact Or.inr ⟨x, by rw [writeAll_lookup_notin _ _ _ hkeys]; exact hx⟩

/-- Claim C3: a node that is no edge's target is a start node, gets level
0, appears only in row 0, and therefore its final position has vertical
coordinate `y = 0 * VERTICAL_SPACING = 0`. -/
theorem c3_root_nodes_level_zero (fuel : Nat) (nodeIds : List String)
    (edges : List FileEdge) (pos : List (String × (Int × Int)))
    (hpos : calculateNodePositions fuel nodeIds edges = some pos)
    (r : String) (hr : r ∈ nodeIds) (hroot : ∀ e ∈ edges, e.target ≠ r) :
    ∃ x, lookupA pos r = some (x, 0) := by
  rw [calculateNodePositions, calculateNodePositionsWith] at hpos
  cases hst : computeLevels fuel nodeIds edges with
  | none => rw [hst] at hpos; cases hpos
  | some st =>
    rw [hst] at hpos
    injection hpos with hpos
    have hrs : r ∈ startNodes nodeIds edges := by
      rw [startNodes, List.mem_filter]
      refine ⟨hr, ?_⟩
      have hany : edges.any (fun e => e.target == r) = false := by
        rw [List.any_eq_false]
        intro e he
        simp only [beq_iff_eq]
        exact hroot e he
      rw [hany]
      rfl
    have hmem0 : MemRow st.perLevel 0 r :=
      computeLevels_root_row fuel nodeIds edges st hst r hrs
    have hall : ∀ lv ids, (lv, ids) ∈ st.perLevel → r ∈ ids → lv = 0 := by
      intro lv ids hin hrin
      rcases computeLevels_rows_provenance fuel nodeIds edges st hst lv r
          ⟨ids, hin, hrin⟩ with ⟨_, h0⟩ | ⟨e, he, het, _⟩
      · exact h0
      · exact absurd het (hroot e he)
    obtain ⟨ids0, hin0, hr0⟩ := hmem0
    have hfin := assignRows_lookup_zero defaultVerticalSpacing
      defaultHorizontalSpacing st.perLevel [] r hall (Or.inl ⟨ids0, hin0, hr0⟩)
    rw [assignPositions] at hpos
    rw [hpos] at hfin
    exact hfin

/-- Claim C3, witness: in the `a → b` layout, the root `a` sits at
`y = 0`. -/
theorem c3_witness :
    ∃ x, lookupA [("a", ((0 : Int), (0 : Int))), ("b", (100, 200))] "a" =
      some (x, 0) :=
  c3_root_nodes_level_zero 3 ["a", "b"] [chainEdge]
    [("a", (0, 0)), ("b", (100, 200))] (by decide) "a" (by decide) (by decide)

/-- Claim C2: on an acyclic edge set (witnessed by a topological rank
function) whose edges stay within the node list and whose every node is
reachable from some start node, the level walk of
`calculateNodePositions` (its `computeLevels` phase) assigns a strictly
larger final level to every edge's target than to its source, and each
node's final level is exactly the maximum depth at which the traversal
reaches it from any start node. -/
theorem c2_levels_monotone_max (fuel : Nat) (nodeIds : List String)
    (edges : List FileEdge) (rank : String → Nat)
    (hacyc : ∀ e ∈ edges, rank e.source < rank e.target)
    (hclosed : ∀ e ∈ edges, e.source ∈ nodeIds ∧ e.target ∈ nodeIds)
    (hreach : ∀ n ∈ nodeIds, ∃ r, r ∈ startNodes nodeIds edges ∧
      ∃ k, ReachD edges r n k)
    (st : LevelState) (hst : computeLevels fuel nodeIds edges = some st) :
    (∀ e ∈ edges, ∃ ls lt, lookupA st.levels e.source = some ls ∧
        lookupA st.levels e.target = some lt ∧ ls < lt) ∧
    (∀ n ∈ nodeIds, ∃ L, lookupA st.levels n = some L ∧
        (∃ r, r ∈ startNodes nodeIds edges ∧ ReachD edges r n L) ∧
        (∀ r k, r ∈ startNodes nodeIds edges → ReachD edges r n k → k ≤ L)) := by
  have htot : ∀ n ∈ nodeIds, ∃ L, lookupA st.levels n = some L ∧
      (∃ r, r ∈ startNodes nodeIds edges ∧ ReachD edges r n L) ∧
      (∀ r k, r ∈ startNodes nodeIds edges → ReachD edges r n k → k ≤ L) := by
    intro n hn
    obtain ⟨r, hrs, k, hk⟩ := hreach n hn
    obtain ⟨L, hL, _⟩ := computeLevels_lb fuel nodeIds edges st hst r hrs n k hk
    refine ⟨L, hL, computeLevels_provenance fuel nodeIds edges st hst n L hL, ?_⟩
    intro r' k' hrs' hk'
    obtain ⟨L', hL', hle'⟩ :=
      computeLevels_lb fuel nodeIds edges st hst r' hrs' n k' hk'
    rw [hL] at hL'
    injection hL' with hL'
    omega
  refine ⟨?_, htot⟩
  intro e he
  obtain ⟨Ls, hLs, ⟨r, hrs, hreachS⟩, _⟩ := htot e.source (hclosed e he).1
  obtain ⟨Lt, hLt, _, hmax⟩ := htot e.target (hclosed e he).2
  have hstep : ReachD edges r e.target (Ls + 1) := ReachD_snoc hreachS e he rfl
  have hle : Ls + 1 ≤ Lt := hmax r (Ls + 1) hrs hstep
  exact ⟨Ls, Lt, hLs, hLt, by omega⟩

/-- Claim C2, witness: the chain `r → a` with its evident topological
rank; `r` gets level 0 and `a` level 1. -/
theorem c2_witness :
    (∀ e ∈ [(⟨"r-a", "r", "a"⟩ : FileEdge)], ∃ ls lt,
        lookupA [("r", (0 : Nat)), ("a", 1)] e.source = some ls ∧
        lookupA [("r", (0 : Nat)), ("a", 1)] e.target = some lt ∧ ls < lt) ∧
    (∀ n ∈ ["r", "a"], ∃ L,
        lookupA [("r", (0 : Nat)), ("a", 1)] n = some L ∧
        (∃ r, r ∈ startNodes ["r", "a"] [⟨"r-a", "r", "a"⟩] ∧
          ReachD [⟨"r-a", "r", "a"⟩] r n L) ∧
        (∀ r k, r ∈ startNodes ["r", "a"] [⟨"r-a", "r", "a"⟩] →
          ReachD [⟨"r-a", "r", "a"⟩] r n k → k ≤ L)) :=
  c2_levels_monotone_max 3 ["r", "a"] [⟨"r-a", "r", "a"⟩]
    (fun s => if s = "r" then 0 else 1)
    (by decide) (by decide)
    (by
      intro n hn
      rcases List.mem_cons.mp hn with rfl | hn
      · exact ⟨"r", by decide, 0, ReachD.refl "r"⟩
      · rcases List.mem_cons.mp hn with rfl | hn
        · exact ⟨"r", by decide, 1,
            ReachD.head ⟨"r-a", "r", "a"⟩ (by decide) rfl (ReachD.refl "a")⟩
        · exact absurd hn (List.not_mem_nil n))
    ⟨[("r", 0), ("a", 1)], [(0, ["r"]), (1, ["a"])]⟩ (by decide)

theorem enumIdx_fst_map {α : Type} (g : Nat → Int) :
    ∀ (k : Nat) (l : List α),
      (enumIdx k l).map (fun p => g p.1) =
        (List.range l.length).map (fun j => g (k + j)) := by
  intro k l
  induction l generalizing k with
  | nil => rfl
  | cons a as ih =>
    simp only [enumIdx, List.map_cons, ih (k + 1), List.length_cons,
      List.range_succ_eq_map, List.map_map]
    congr 1
    refine List.map_congr_left ?_
    intro j _
    show g (k + 1 + j) = g (k + (j + 1))
    exact congrArg g (by omega)

/-- The x-coordinates of one placement row (variant 1 constants), with the
exact division already carried out: `(n - 1) * 400` is always even. -/
theorem rowXs_eq (lv : Nat) (ids : List String) :
    rowXs lv ids = (List.range ids.length).map
      (fun j : Nat => -(((ids.length : Int) - 1) * 200) + (j : Int) * 400 +
        (if lv % 2 = 0 then 0 else STAGGER_OFFSET)) := by
  have hA : (-(((ids.length : Int) - 1) * 400)) / 2 =
      -(((ids.length : Int) - 1) * 200) := by
    have h2 : (-(((ids.length : Int) - 1) * 400)) =
        (-(((ids.length : Int) - 1) * 200)) * 2 := by ring
    rw [h2, Int.mul_ediv_cancel]
    norm_num
  simp only [rowXs, assignRow, List.map_map, defaultHorizontalSpacing]
  have hmap := enumIdx_fst_map
    (fun j => (-(((ids.length : Int) - 1) * 400)) / 2 + (j : Int) * 400 +
      (if lv % 2 = 0 then 0 else STAGGER_OFFSET)) 0 ids
  rw [show ((fun (a : String × (Int × Int)) => a.2.1) ∘
      (fun p : Nat × String =>
        (p.2, ((-(((ids.length : Int) - 1) * 400)) / 2 + (p.1 : Int) * 400 +
          (if lv % 2 = 0 then 0 else STAGGER_OFFSET),
          (lv : Int) * defaultVerticalSpacing)))) =
      (fun p : Nat × String =>
        (-(((ids.length : Int) - 1) * 400)) / 2 + (p.1 : Int) * 400 +
          (if lv % 2 = 0 then 0 else STAGGER_OFFSET)) from rfl, hmap]
  refine List.map_congr_left ?_
  intro j _
  rw [Nat.zero_add, hA]

/-- Claim C5, amended: within each placement row of the layout, the
assigned x-coordinates are pairwise distinct; the minimum and maximum x
of the row sum to 0 on even levels and to `2 * STAGGER_OFFSET = 200` on
odd levels (the stagger shifts odd rows right, so their x's are not
symmetric about 0 as originally claimed). -/
theorem c5_row_xs (fuel : Nat) (nodeIds : List String) (edges : List FileEdge)
    (st : LevelState) (hst : computeLevels fuel nodeIds edges = some st)
    (lv : Nat) (ids : List String) (hrow : (lv, ids) ∈ st.perLevel)
    (hne : ids ≠ []) :
    (rowXs lv ids).Pairwise (· ≠ ·) ∧
    ∃ m M, m ∈ rowXs lv ids ∧ M ∈ rowXs lv ids ∧
      (∀ x ∈ rowXs lv ids, m ≤ x ∧ x ≤ M) ∧
      m + M = if lv % 2 = 0 then 0 else 2 * STAGGER_OFFSET := by
  have hn : 0 < ids.length := List.length_pos.mpr hne
  rw [rowXs_eq]
  constructor
  · refine List.Pairwise.map _ ?_ (List.pairwise_lt_range ids.length)
    intro i j hij
    have : (i : Int) * 400 < (j : Int) * 400 := by
      have : (i : Int) < (j : Int) := by exact_mod_cast hij
      omega
    omega
  · refine ⟨-(((ids.length : Int) - 1) * 200) + ((0 : Nat) : Int) * 400 +
      (if lv % 2 = 0 then 0 else STAGGER_OFFSET),
      -(((ids.length : Int) - 1) * 200) + ((ids.length - 1 : Nat) : Int) * 400 +
      (if lv % 2 = 0 then 0 else STAGGER_OFFSET),
      List.mem_map_of_mem _ (List.mem_range.mpr hn),
      List.mem_map_of_mem _ (List.mem_range.mpr (by omega)), ?_, ?_⟩
    · intro x hx
      obtain ⟨j, hj, rfl⟩ := List.mem_map.mp hx
      rw [List.mem_range] at hj
      have hj1 : (j : Int) ≤ ((ids.length - 1 : Nat) : Int) := by
        have : j ≤ ids.length - 1 := by omega
        exact_mod_cast this
      constructor
      · have h0 : ((0 : Nat) : Int) * 400 ≤ (j : Int) * 400 := by positivity
        omega
      · have : (j : Int) * 400 ≤ ((ids.length - 1 : Nat) : Int) * 400 := by
          nlinarith
        omega
    · have hcast : ((ids.length - 1 : Nat) : Int) = (ids.length : Int) - 1 := by
        omega
      rw [hcast]
      by_cases hp : lv % 2 = 0
      · simp only [if_pos hp]
        ring
      · simp only [if_neg hp, STAGGER_OFFSET]
        ring

/-- Claim C5, witness: the single node of (odd) level 1 sits at `x = 100`;
minimum and maximum sum to `200 = 2 * STAGGER_OFFSET`. -/
theorem c5_witness :
    (rowXs 1 ["b"]).Pairwise (· ≠ ·) ∧
    ∃ m M, m ∈ rowXs 1 ["b"] ∧ M ∈ rowXs 1 ["b"] ∧
      (∀ x ∈ rowXs 1 ["b"], m ≤ x ∧ x ≤ M) ∧
      m + M = if 1 % 2 = 0 then 0 else 2 * STAGGER_OFFSET :=
  c5_row_xs 3 ["a", "b"] [chainEdge]
    ⟨[("a", 0), ("b", 1)], [(0, ["a"]), (1, ["b"])]⟩ (by decide)
    1 ["b"] (by decide) (by decide)

theorem foldOpt_exists_rel {σ α : Type} (R : σ → σ → Prop)
    (g1 g2 : σ → α → Option σ) :
    ∀ (xs : List α),
      (∀ s t x s', x ∈ xs → R s t → g1 s x = some s' →
        ∃ t', g2 t x = some t' ∧ R s' t') →
      ∀ s t s', R s t → foldOpt g1 s xs = some s' →
        ∃ t', foldOpt g2 t xs = some t' ∧ R s' t' := by
  intro xs
  induction xs with
  | nil =>
    intro _ s t s' hR h
    rw [foldOpt] at h
    cases h
    exact ⟨t, rfl, hR⟩
  | cons x xs ih =>
    intro hg s t s' hR h
    cases hx : g1 s x with
    | none => rw [foldOpt_cons_none _ _ _ _ hx] at h; cases h
    | some sm =>
      rw [foldOpt_cons_some _ _ hx] at h
      obtain ⟨tm, htm, hRm⟩ := hg s t x sm (List.mem_cons_self x xs) hR hx
      obtain ⟨t', ht', hR'⟩ := ih
        (fun a b y b' hy => hg a b y b' (List.mem_cons_of_mem x hy)) sm tm s' hRm h
      exact ⟨t', by rw [foldOpt_cons_some _ _ htm]; exact ht', hR'⟩

/-- The random draws influence only the initial node positions: two
`processDirectory` runs over the same tree from position-agreeing states
succeed together and agree on everything but positions. -/
theorem processDirectory_agree (r1 r2 : Nat → Int × Int) :
    ∀ (f : Nat) (t : YTree) (p : String) (s1 s2 s1' : FlatState),
      FlatAgree s1 s2 → processDirectory r1 f t p s1 = some s1' →
      ∃ s2', processDirectory r2 f t p s2 = some s2' ∧ FlatAgree s1' s2' := by
  intro f
  induction f with
  | zero => intro t p s1 s2 s1' _ h; cases h
  | succ f ih =>
    intro t p s1 s2 s1' hR h
    obtain ⟨hn, he, ha⟩ := hR
    cases t with
    | leaf file =>
      simp only [processDirectory] at h
      injection h with h
      refine ⟨_, rfl, ?_⟩
      subst h
      refine ⟨?_, ?_, ?_⟩
      · show (s1.nodes ++ _).map stripPos = (s2.nodes ++ _).map stripPos
        rw [List.map_append, List.map_append, hn]
        rfl
      · show s1.edges ++ _ = s2.edges ++ _
        rw [he]
      · show addSet s1.agents _ = addSet s2.agents _
        rw [ha]
    | dir entries =>
      simp only [processDirectory] at h
      obtain ⟨s2', h2, hR'⟩ := foldOpt_exists_rel FlatAgree _ _ entries
        (fun a b kv a' _ hab hpa => ih kv.2 (childPath p kv.1) a b a' hab hpa)
        s1 s2 s1' ⟨hn, he, ha⟩ h
      exact ⟨s2', by simp only [processDirectory]; exact h2, hR'⟩
    | str s =>
      simp only [processDirectory] at h
      obtain ⟨s2', h2, hR'⟩ := foldOpt_exists_rel FlatAgree _ _ (entriesOfString s)
        (fun a b kv a' _ hab hpa => ih kv.2 (childPath p kv.1) a b a' hab hpa)
        s1 s2 s1' ⟨hn, he, ha⟩ h
      exact ⟨s2', by simp only [processDirectory]; exact h2, hR'⟩

/-- Applying the computed positions to two strip-equal node lists whose
ids are all covered by the position map yields equal node lists. -/
theorem map_update_eq (pos : List (String × (Int × Int))) :
    ∀ (l1 l2 : List FileNode), l1.map stripPos = l2.map stripPos →
      (∀ n ∈ l1, (lookupA pos n.id).isSome) →
      l1.map (fun n => match lookupA pos n.id with
        | some q => { n with position := q }
        | none => n) =
      l2.map (fun n => match lookupA pos n.id with
        | some q => { n with position := q }
        | none => n) := by
  intro l1
  induction l1 with
  | nil =>
    intro l2 h _
    rw [List.map_nil] at h
    rw [List.map_eq_nil_iff.mp h.symm]
  | cons n1 t1 ih =>
    intro l2 h hcov
    cases l2 with
    | nil => simp at h
    | cons n2 t2 =>
      simp only [List.map_cons, List.cons.injEq] at h
      obtain ⟨hhead, htail⟩ := h
      have hcov1 : (lookupA pos n1.id).isSome :=
        hcov n1 (List.mem_cons_self _ _)
      obtain ⟨i1, d1, p1⟩ := n1
      obtain ⟨i2, d2, p2⟩ := n2
      simp only [stripPos, Prod.mk.injEq] at hhead
      obtain ⟨hid, hdata⟩ := hhead
      subst hid
      subst hdata
      simp only [List.map_cons, List.cons.injEq]
      refine ⟨?_, ih t2 htail (fun n hn => hcov n (List.mem_cons_of_mem _ hn))⟩
      cases hl : lookupA pos i1 with
      | none =>
        rw [hl] at hcov1
        cases hcov1
      | some q => simp only [hl]

/-- Claim C6, amended: two runs of variant 1 `generateNodesAndEdges` on
the same tree always agree on edges, agents, and nodes up to positions;
they agree exactly (positions included) whenever every flattened node
receives an entry in the layout's position map — otherwise nodes missed
by the layout keep their `Math.random()` initial positions, which differ
between runs (see the counterexample). -/
theorem c6_gen_deterministic (rand1 rand2 : Nat → Int × Int) (fuel : Nat)
    (src : YTree) (o1 o2 : GenResult)
    (h1 : generateNodesAndEdges rand1 fuel src = some o1)
    (h2 : generateNodesAndEdges rand2 fuel src = some o2) :
    o1.edges = o2.edges ∧ o1.agents = o2.agents ∧
      o1.nodes.map stripPos = o2.nodes.map stripPos ∧
      (∀ st1 pos, processDirectory rand1 fuel src "src" ⟨[], [], []⟩ = some st1 →
        calculateNodePositions fuel (st1.nodes.map (·.id)) st1.edges = some pos →
        (∀ n ∈ st1.nodes, (lookupA pos n.id).isSome) → o1 = o2) := by
  rw [generateNodesAndEdges] at h1 h2
  cases hp1 : processDirectory rand1 fuel src "src" ⟨[], [], []⟩ with
  | none => rw [hp1] at h1; cases h1
  | some st1 =>
    simp only [hp1] at h1
    obtain ⟨st2, hp2, hagree⟩ := processDirectory_agree rand1 rand2 fuel src "src"
      ⟨[], [], []⟩ ⟨[], [], []⟩ st1 ⟨rfl, rfl, rfl⟩ hp1
    simp only [hp2] at h2
    obtain ⟨hn, he, ha⟩ := hagree
    have hids : st1.nodes.map (·.id) = st2.nodes.map (·.id) := by
      have e1 : st1.nodes.map (·.id) = (st1.nodes.map stripPos).map Prod.fst := by
        rw [List.map_map]
        rfl
      have e2 : st2.nodes.map (·.id) = (st2.nodes.map stripPos).map Prod.fst := by
        rw [List.map_map]
        rfl
      rw [e1, e2, hn]
    rw [← hids, ← he] at h2
    cases hpos : calculateNodePositions fuel (st1.nodes.map (·.id)) st1.edges with
    | none => rw [hpos] at h1; cases h1
    | some pos =>
      simp only [hpos] at h1 h2
      injection h1 with h1
      injection h2 with h2
      subst h1
      subst h2
      refine ⟨rfl, ha, ?_, ?_⟩
      · show ((st1.nodes.map _).map stripPos) = ((st2.nodes.map _).map stripPos)
        have hupd : ∀ (ns : List FileNode), (ns.map (fun n =>
            match lookupA pos n.id with
            | some q => { n with position := q }
            | none => n)).map stripPos = ns.map stripPos := by
          intro ns
          rw [List.map_map]
          refine List.map_congr_left ?_
          intro n _
          show stripPos (match lookupA pos n.id with
            | some q => { n with position := q }
            | none => n) = stripPos n
          cases lookupA pos n.id <;> rfl
        rw [hupd st1.nodes, hupd st2.nodes, hn]
      · intro st1' pos' hp1' hpos' hcov
        injection hp1' with hp1'
        subst hp1'
        rw [hpos] at hpos'
        injection hpos' with hpos'
        subst hpos'
        show GenResult.mk _ _ _ = GenResult.mk _ _ _
        rw [GenResult.mk.injEq]
        exact ⟨map_update_eq pos st1.nodes st2.nodes hn hcov, rfl, ha⟩

/-- Claim C6, witness: on the empty tree both runs return the same empty
result, and the coverage condition gives exact equality. -/
theorem c6_witness :
    (GenResult.mk [] [] []).edges = (GenResult.mk [] [] []).edges ∧
    (GenResult.mk [] [] []).agents = (GenResult.mk [] [] []).agents ∧
    (GenResult.mk [] [] []).nodes.map stripPos =
      (GenResult.mk [] [] []).nodes.map stripPos ∧
    (∀ st1 pos,
      processDirectory (constRand (0, 0)) 1 (YTree.dir []) "src" ⟨[], [], []⟩ =
        some st1 →
      calculateNodePositions 1 (st1.nodes.map (·.id)) st1.edges = some pos →
      (∀ n ∈ st1.nodes, (lookupA pos n.id).isSome) →
      GenResult.mk [] [] [] = GenResult.mk [] [] []) :=
  c6_gen_deterministic (constRand (0, 0)) (constRand (7, 7)) 1 (YTree.dir [])
    (GenResult.mk [] [] []) (GenResult.mk [] [] []) (by decide) (by decide)

/-- On the cyclic subgraph `a → b → a`, `calculateLevel` never completes:
it runs out of any recursion-depth budget. -/
theorem cycle_calc_none : ∀ f : Nat,
    (∀ level st, calcLevel cycleEdges f "a" level st = none) ∧
    (∀ level st, calcLevel cycleEdges f "b" level st = none) := by
  intro f
  induction f with
  | zero => exact ⟨fun _ _ => rfl, fun _ _ => rfl⟩
  | succ f ih =>
    refine ⟨fun level st => ?_, fun level st => ?_⟩
    · have hf : cycleEdges.filter (fun e => e.source == "a") =
          [⟨"a-b", "a", "b"⟩] := by decide
      simp only [calcLevel, hf]
      exact foldOpt_cons_none _ _ _ _ (ih.2 _ _)
    · have hf : cycleEdges.filter (fun e => e.source == "b") =
          [⟨"b-a", "b", "a"⟩] := by decide
      simp only [calcLevel, hf]
      exact foldOpt_cons_none _ _ _ _ (ih.1 _ _)

/-- Claim C1: on a node/edge set whose cycle `a → b → a` is reachable
from the root `r`, the level walk of `calculateNodePositions` exhausts
every recursion-depth budget — i.e. the unguarded recursion of
`calculateLevel` never terminates, contrary to the claim. -/
theorem c1_cycle_layout_diverges (fuel : Nat) :
    calculateNodePositions fuel ["r", "a", "b"] cycleEdges = none := by
  have hstart : startNodes ["r", "a", "b"] cycleEdges = ["r"] := by decide
  rw [calculateNodePositions, calculateNodePositionsWith, computeLevels, hstart]
  have hr : calcLevel cycleEdges fuel "r" 0 ⟨[], []⟩ = none := by
    cases fuel with
    | zero => rfl
    | succ f =>
      have hf : cycleEdges.filter (fun e => e.source == "r") =
          [⟨"r-a", "r", "a"⟩] := by decide
      simp only [calcLevel, hf]
      exact foldOpt_cons_none _ _ _ _ ((cycle_calc_none f).1 _ _)
  rw [foldOpt_cons_none _ _ _ _ hr]

/-- Running `processDirectory` on a nonempty plain string never completes:
`Object.entries` of a nonempty string enumerates its characters, each a
nonempty one-character string recursed into forever. -/
theorem str_process_none (rand : Nat → Int × Int) :
    ∀ (f : Nat) (s p : String) (st : FlatState),
      s ≠ "" → processDirectory rand f (YTree.str s) p st = none := by
  intro f
  induction f with
  | zero => intro s p st _; rfl
  | succ f ih =>
    intro s p st hs
    obtain ⟨cs⟩ := s
    cases cs with
    | nil => exact absurd (by decide) hs
    | cons c cs' =>
      simp only [processDirectory, entriesOfString, enumIdx, List.map_cons]
      refine foldOpt_cons_none _ _ _ _ ?_
      exact ih (String.mk [c]) _ st
        (fun hh => List.cons_ne_nil c [] (congrArg String.data hh))

/-- Claim C7: a record whose value is a plain string (`{src: {"a.ts":
"hello"}}`) is not silently skipped — `processDirectory` recurses into the
string's character entries without bound and never returns, for every
recursion-depth budget. -/
theorem c7_string_record_diverges (fuel : Nat) (rand : Nat → Int × Int)
    (parentPath : String) (st : FlatState) :
    processDirectory rand fuel (YTree.dir [("a.ts", YTree.str "hello")])
      parentPath st = none := by
  cases fuel with
  | zero => rfl
  | succ f =>
    simp only [processDirectory]
    exact foldOpt_cons_none _ _ _ _
      (str_process_none rand f "hello" _ st (by decide))

/-- Claim C9, counterexample: `"JS"` is not one of the sixteen listed
extension strings, yet variant 1 `getExtensionColor` lowercases its
argument and returns the JavaScript color rather than the neutral
default. -/
theorem c9_counterexample :
    getExtensionColor "JS" = jsColor ∧ jsColor ≠ defaultColor ∧
      "JS" ∉ colorMap.map Prod.fst := by decide

/-- Claim C9, amended: variant 1 `getExtensionColor` maps every string
whose lowercasing is a key of the sixteen-entry table to that entry's
color and every other string to the single default `#808080`; variant 2
`getExtensionColor` uses a nine-entry case-sensitive table with default
`#9E9E9E`. -/
theorem c9_extension_colors :
    (∀ ext : String, lookupA colorMap (toLowerCase ext) = none →
        getExtensionColor ext = defaultColor) ∧
    (∀ kv ∈ colorMap, getExtensionColor kv.1 = kv.2) ∧
    (∀ ext : String, lookupA colors2 ext = none →
        getExtensionColor2 ext = "#9E9E9E") ∧
    (∀ kv ∈ colors2, getExtensionColor2 kv.1 = kv.2) := by
  refine ⟨?_, by decide, ?_, by decide⟩
  · intro ext h
    rw [getExtensionColor, h]
  · intro ext h
    rw [getExtensionColor2, h]

/-- Claim C9, witness: an unknown extension gets the default color (in
both variants). -/
theorem c9_witness :
    getExtensionColor "exe" = defaultColor ∧
      getExtensionColor2 "js" = "#9E9E9E" :=
  ⟨c9_extension_colors.1 "exe" (by decide),
   c9_extension_colors.2.2.1 "js" (by decide)⟩

/-- Claim C4, counterexample: under the variant 1 flattener (edges point
from the file to its dependency), the dangling path `src/missing.ts` is
visited by the level walk and the returned position map does contain an
entry keyed by it. -/
theorem c4_counterexample :
    (processDirectory (constRand (0, 0)) 3 missingDepTree "src" ⟨[], [], []⟩).bind
        (fun st => (calculateNodePositions 3 (st.nodes.map (·.id)) st.edges).bind
          (fun pos => lookupA pos "src/missing.ts")) = some (100, 200) := by
  decide

/-- Claim C4, amended: the flattener emits an edge referencing the absent
path and the layout completes without error; under the variant 2
flattener (edges point from the dependency to the file) the position map
has no entry keyed by the absent path, while under the variant 1
flattener the absent path does receive a position entry (see the
counterexample). -/
theorem c4_dangling_edge :
    (processDirectory (constRand (0, 0)) 3 missingDepTree "src" ⟨[], [], []⟩).map
        (fun st => st.edges) =
      some [⟨"src/a.ts-src/missing.ts", "src/a.ts", "src/missing.ts"⟩] ∧
    (flatten2 missingDepSrc2).edges =
      [⟨"src/a.ts-src/missing.ts", "src/missing.ts", "src/a.ts"⟩] ∧
    (calculateNodePositions2 3 ((flatten2 missingDepSrc2).nodes.map (·.id))
        (flatten2 missingDepSrc2).edges).map
      (fun pos => lookupA pos "src/missing.ts") = some none := by
  decide

/-- Claim C8, counterexample: on the empty tree `{src: {}}`, variant 2
`generateNodesAndEdges` returns the synthetic `src/structure.yaml` node
and an `undefined` agent entry, not empty lists. -/
theorem c8_counterexample :
    (generateNodesAndEdges2 1 []).map (fun o => o.nodes.map (·.id)) =
      some ["src/structure.yaml"] ∧
    (generateNodesAndEdges2 1 []).map (fun o => o.agents) = some [none] := by
  decide

/-- Claim C8, amended: on the empty tree, variant 1 returns empty nodes,
edges and agents (and the layout returns an empty position map, no
error), while variant 2 returns the synthetic `structure.yaml` node, no
edges, and the agent set `{undefined}`. -/
theorem c8_empty_tree :
    generateNodesAndEdges (constRand (0, 0)) 1 (YTree.dir []) =
      some ⟨[], [], []⟩ ∧
    calculateNodePositions 1 [] [] = some [] ∧
    generateNodesAndEdges2 1 [] =
      some ⟨[⟨"src/structure.yaml", ⟨"structure.yaml", none, none, "yaml"⟩,
              (0, 0)⟩], [], [none]⟩ := by
  decide

/-- Claim C5, counterexample: with the single edge `a → b`, level 1
holds exactly the node `b`, whose final x-coordinate is the stagger
offset 100, so the minimum and maximum x of that level sum to 200, not
0. -/
theorem c5_counterexample :
    (computeLevels 3 ["a", "b"] [chainEdge]).map (·.perLevel) =
      some [(0, ["a"]), (1, ["b"])] ∧
    (calculateNodePositions 3 ["a", "b"] [chainEdge]).bind
      (fun pos => lookupA pos "b") = some (100, 200) ∧
    (100 : Int) + 100 ≠ 0 := by
  decide

/-- Claim C6, counterexample: on a pure two-cycle no node is reached by
the level walk, both nodes keep their `Math.random()` initial positions,
and two runs with different random draws return different results. -/
theorem c6_counterexample :
    generateNodesAndEdges (constRand (0, 0)) 4 cycleTree ≠
      generateNodesAndEdges (constRand (7, 7)) 4 cycleTree := by
  decide

end KamuiViz
